import Mathlib

/-!
Verification of the Naive Bayes classifier (`NB.py`).

The Python program computes with floating-point logarithms.  We embed it with
exact rational arithmetic: wherever Python stores `log p` (a float), the Lean
model stores the rational `p` itself, and theorems about the stored logarithms
are phrased through `Real.log` of the stored rational.  Python dictionaries are
embedded as association lists in insertion order, Python sets as duplicate-free
lists in insertion order, and every Python operation that can raise
(`KeyError`, `ValueError` from `int()` or `math.log`, `ZeroDivisionError`)
is embedded as an `Option`-valued function returning `none` there.
-/

namespace NB

/-- Python document: a word-count dictionary (association list in insertion
order) paired with a label. -/
abbrev WordCounts := List (String × ℤ)

abbrev Doc := WordCounts × String

/-- Dictionary read `d[k]` / `d.get(k)` as an association-list lookup:
the value of the first pair whose key is `k`. -/
def dget {α β : Type} [DecidableEq α] : List (α × β) → α → Option β
  | [], _ => none
  | (k, v) :: t, w => if k = w then some v else dget t w

/-- Python dict assignment `d[w] = d.get(w, 0) + k` (used to build `bigdoc`):
add into the first entry with key `w`, or append a new entry. -/
def updAdd : List (String × ℤ) → String → ℤ → List (String × ℤ)
  | [], w, k => [(w, k)]
  | (w', v) :: t, w, k =>
    if w' = w then (w', v + k) :: t else (w', v) :: updAdd t w k

/-- Python dict assignment `d[w] = k` (used to build a line's `word_counts`):
overwrite the first entry with key `w`, or append a new entry. -/
def updSet : List (String × ℤ) → String → ℤ → List (String × ℤ)
  | [], w, k => [(w, k)]
  | (w', v) :: t, w, k =>
    if w' = w then (w', k) :: t else (w', v) :: updSet t w k

/-- Python `set.add` on a set embedded as a duplicate-free list in insertion
order. -/
def insertNew (l : List String) (w : String) : List String :=
  if w ∈ l then l else l ++ [w]

/-! ## Document loader (`load_preprocessed_data`, NB.py lines 4-30)

A physical input line is embedded as its Python `line.strip().split()`
token list (a blank line is the empty token list). -/

/-- Digit-string parsing, the digits part of Python `int(s)`:
`none` unless the character list is a non-empty sequence of decimal digits. -/
def parseNatDigits (cs : List Char) : Option ℕ :=
  if cs = [] then none
  else cs.foldl
    (fun acc c => acc.bind fun n =>
      if c.isDigit then some (n * 10 + (c.toNat - 48)) else none)
    (some 0)

/-- Python `int(s)` on a whitespace-free string: an optional sign followed by
decimal digits; `none` models the `ValueError` on anything else. -/
def parseInt (s : String) : Option ℤ :=
  match s.toList with
  | '-' :: rest => (parseNatDigits rest).map fun n => -(n : ℤ)
  | '+' :: rest => (parseNatDigits rest).map fun n => (n : ℤ)
  | cs => (parseNatDigits cs).map fun n => (n : ℤ)

/-- Split a character list at every colon (Python `s.split(':')`). -/
def splitColon (cs : List Char) : List (List Char) :=
  match cs with
  | [] => [[]]
  | c :: t =>
    let r := splitColon t
    if c = ':' then [] :: r
    else
      match r with
      | [] => [[c]]
      | h :: t' => (c :: h) :: t'

/-- Python `word, count = word_count.split(':'); int(count)`:
`none` models the `ValueError` when the split does not yield exactly two
parts or the count does not parse as an integer. -/
def parseSeg (s : String) : Option (String × ℤ) :=
  match splitColon s.toList with
  | [w, c] => (parseInt ⟨c⟩).map fun n => (⟨w⟩, n)
  | _ => none

/-- The inner loop of `load_preprocessed_data` over one line's
`word:count` segments: builds the line's `word_counts` dict and extends the
running vocabulary, failing on the first malformed segment. -/
def parseSegs (segs : List String) (wc : WordCounts) (vocab : List String) :
    Option (WordCounts × List String) :=
  match segs with
  | [] => some (wc, vocab)
  | s :: rest =>
    match parseSeg s with
    | none => none
    | some (w, n) => parseSegs rest (updSet wc w n) (insertNew vocab w)

/-- One iteration of the loader's line loop (NB.py lines 13-28): a blank
line (empty token list) is skipped, otherwise the first token is the label
and the rest are `word:count` segments. -/
def loadStep (acc : List Doc × List String) (line : List String) :
    Option (List Doc × List String) :=
  match line with
  | [] => some acc
  | label :: segs =>
    (parseSegs segs [] acc.2).map fun r => (acc.1 ++ [(r.1, label)], r.2)

/-- Function `load_preprocessed_data` (NB.py lines 4-30) over the file's lines, each
line given as its `line.strip().split()` token list (a blank line is `[]`).
Returns the documents and the vocabulary-of-file; `none` models the
uncaught `ValueError` that aborts the whole invocation on the first
malformed `word:count` segment. -/
def load_preprocessed_data (lines : List (List String)) :
    Option (List Doc × List String) :=
  lines.foldlM loadStep ([], [])

/-! ## Trainer (`train_naive_bayes`, NB.py lines 32-73) -/

/-- The document count of one class, the value `class_counts[c]` reaches
after the loop of NB.py lines 44-46. -/
def countLabel : List Doc → String → ℕ
  | [], _ => 0
  | d :: t, c => (if d.2 = c then 1 else 0) + countLabel t c

/-- The vocabulary loop `V.update(word_counts.keys())` over all documents
(NB.py lines 49-51). -/
def computeV (documents : List Doc) : List String :=
  documents.foldl (fun V d => d.1.foldl (fun V2 p => insertNew V2 p.1) V) []

/-- The per-class "bigdoc" dict (NB.py lines 58-61): total count of each word
over the documents labelled `c`, accumulated in document order. -/
def bigdocFor (documents : List Doc) (c : String) : List (String × ℤ) :=
  documents.foldl
    (fun bd d =>
      if d.2 = c then d.1.foldl (fun bd2 p => updAdd bd2 p.1 p.2) bd else bd)
    []

/-- One class's prior probability `class_counts[c] / N_doc` (NB.py line 55).
The model stores the ratio whose logarithm Python stores; `none` models
`ZeroDivisionError` when `N_doc = 0` and the `math.log` `ValueError` when
the ratio is not positive. -/
def priorProb (documents : List Doc) (c : String) : Option ℚ :=
  if documents.length = 0 then none
  else
    let p : ℚ := (countLabel documents c : ℚ) / (documents.length : ℚ)
    if 0 < p then some p else none

/-- The prior loop (NB.py lines 54-55): `logprior[c]` for each class in
iteration order. -/
def priorsFor (documents : List Doc) (classes : List String) :
    Option (List (String × ℚ)) :=
  classes.mapM fun c => (priorProb documents c).map fun p => (c, p)

/-- One word's smoothed probability for a class whose `bigdoc` dict is `bd`
(NB.py lines 66-71): `total_words = sum(bigdoc[c].values()) + len(V)` and
`(bigdoc[c].get(word, 0) + 1) / total_words`.  The model stores the ratio
whose logarithm Python stores; `none` models `ZeroDivisionError` on a zero
denominator and the `math.log` `ValueError` on a non-positive ratio. -/
def likeProb (V : List String) (bd : List (String × ℤ)) (w : String) : Option ℚ :=
  let total_words : ℤ := (bd.map Prod.snd).sum + V.length
  if total_words = 0 then none
  else
    let count : ℤ := (dget bd w).getD 0 + 1
    let p : ℚ := (count : ℚ) / (total_words : ℚ)
    if 0 < p then some p else none

/-- The likelihood loop for one class (NB.py lines 64-71):
`loglikelihood[(word, c)]` for each word of `V` in iteration order. -/
def likelihoodFor (V : List String) (bd : List (String × ℤ)) (c : String) :
    Option (List ((String × String) × ℚ)) :=
  V.mapM fun w => (likeProb V bd w).map fun p => ((w, c), p)

/-- The trained model.  `prior` and `like` store the probabilities whose
natural logarithms the Python `logprior` / `loglikelihood` dicts hold. -/
structure Model where
  V : List String
  prior : List (String × ℚ)
  like : List ((String × String) × ℚ)
deriving DecidableEq, Repr

/-- Function `train_naive_bayes` (NB.py lines 32-73).  `none` models the exceptions
the Python raises: `KeyError` when a document's label is outside `classes`
(the `class_counts[label] += 1` on line 46 and `bigdoc[label]` on line 61),
`ZeroDivisionError` on an empty document list, and `ValueError` from
`math.log` on a non-positive argument. -/
def train_naive_bayes (documents : List Doc) (classes : List String) :
    Option Model :=
  if documents.all (fun d => d.2 ∈ classes) then
    let V := computeV documents
    match priorsFor documents classes with
    | none => none
    | some logprior =>
      match (classes.mapM fun c => likelihoodFor V (bigdocFor documents c) c) with
      | none => none
      | some blocks => some ⟨V, logprior, blocks.flatten⟩
  else none

/-! ## Classifier (`test_naive_bayes`, NB.py lines 75-92)

The Python score `scores[c]` is a sum of logarithms; the model carries its
exponential, a rational: the initialization `scores = {c: logprior[c] for c
in classes}` starts from the prior probability, and each update
`scores[c] += count * loglikelihood.get((word, c), 0)` multiplies by the
stored probability raised to `count` (the `.get` default `0` in log space
is the factor `1`).  Comparisons of scores are unchanged, since `exp` is
strictly monotone. -/

/-- The score dict after the loop of NB.py lines 81-89, in exponential form;
`none` models the `KeyError` when `logprior` lacks one of the classes. -/
def classifyScores (word_counts : WordCounts) (V : List String)
    (logprior : List (String × ℚ)) (loglikelihood : List ((String × String) × ℚ))
    (classes : List String) : Option (List (String × ℚ)) :=
  (classes.mapM fun c => (dget logprior c).map fun p => (c, p)).map fun init =>
    word_counts.foldl
      (fun scores p =>
        if p.1 ∈ V then
          scores.map fun e =>
            (e.1, e.2 * ((dget loglikelihood (p.1, e.1)).getD 1) ^ p.2)
        else scores)
      init

/-- Python `max(iterable, key=...)`: the first element whose key is maximal
(a later element replaces the current one only when strictly greater);
`none` models the `ValueError` on an empty iterable. -/
def pyMaxGo (c : String) (s : ℚ) : List (String × ℚ) → String
  | [] => c
  | (c', s') :: t => if s < s' then pyMaxGo c' s' t else pyMaxGo c s t

/-- Python `max(scores.items(), key=lambda x: x[1])[0]` (NB.py line 92). -/
def pyMaxFst : List (String × ℚ) → Option String
  | [] => none
  | (c, s) :: t => some (pyMaxGo c s t)

/-- Function `test_naive_bayes` (NB.py lines 75-92): the argmax class of the score
dict, ties resolved to the first class in iteration order. -/
def test_naive_bayes (word_counts : WordCounts) (V : List String)
    (logprior : List (String × ℚ)) (loglikelihood : List ((String × String) × ℚ))
    (classes : List String) : Option String :=
  (classifyScores word_counts V logprior loglikelihood classes).bind pyMaxFst

/-- Closed form of the in-vocabulary factor a document contributes to one
class's score, in exponential form: the product over the document's
`(word, count)` pairs with `word ∈ V` of the stored probability raised to
`count` (Python adds `count * loglikelihood.get((word, c), 0)`; the `.get`
default `0` in log space is the factor `1`). -/
def prodFactor (word_counts : WordCounts) (V : List String)
    (loglikelihood : List ((String × String) × ℚ)) (c : String) : ℚ :=
  (word_counts.map fun p =>
    if p.1 ∈ V then ((dget loglikelihood (p.1, c)).getD 1) ^ p.2 else 1).prod

/-! ## The logarithmic view

The Python program stores `log p` where the model stores `p`.  The following
noncomputable definitions recover the Python values exactly. -/

/-- The value `logprior[c]` holds in the Python program. -/
noncomputable def logpriorR (logprior : List (String × ℚ)) (c : String) : ℝ :=
  Real.log (((dget logprior c).getD 0 : ℚ) : ℝ)

/-- The value `loglikelihood[(w, c)]` holds in the Python program. -/
noncomputable def loglikelihoodR (loglikelihood : List ((String × String) × ℚ))
    (w c : String) : ℝ :=
  Real.log (((dget loglikelihood (w, c)).getD 0 : ℚ) : ℝ)

/-- The final value `scores[c]` holds in `test_naive_bayes` (NB.py lines
81-89): the log-prior plus, for each `(word, count)` pair of the document
with `word ∈ V`, `count * loglikelihood.get((word, c), 0)`. -/
noncomputable def scoreR (word_counts : WordCounts) (V : List String)
    (logprior : List (String × ℚ)) (loglikelihood : List ((String × String) × ℚ))
    (c : String) : ℝ :=
  logpriorR logprior c +
    (word_counts.map fun p =>
      if p.1 ∈ V then
        (p.2 : ℝ) *
          (match dget loglikelihood (p.1, c) with
           | some q => Real.log (q : ℝ)
           | none => 0)
      else 0).sum

/-! ## Evaluation driver (`__main__`, NB.py lines 112-149) -/

/-- Round a rational to the nearest integer, ties to the even integer
(the rounding CPython's fixed-point float formatting applies).  `Modelled
from the spec:` the driver's `f"{accuracy:.2f}"`; the binary-float rounding
of CPython is modelled as exact rational rounding, which agrees on every
value the verified claims exercise. -/
def roundHalfEven (x : ℚ) : ℤ :=
  let f := ⌊x⌋
  if x - f < 1/2 then f
  else if (1 : ℚ)/2 < x - f then f + 1
  else if f % 2 = 0 then f else f + 1

/-- Python `f"{q:.2f}"` for a non-negative rational: the integer part and exactly
two fractional digits of `q` rounded to two decimal places. -/
def fmt2 (q : ℚ) : String :=
  let n := roundHalfEven (q * 100)
  let fr := (n % 100).toNat
  toString (n / 100) ++ "." ++ (if fr < 10 then "0" else "") ++ toString fr

/-- The number of predictions equal to the true label (`correct` after the
loop of NB.py lines 138-145). -/
def countCorrect : List (String × String) → ℕ
  | [] => 0
  | r :: t => (if r.1 = r.2 then 1 else 0) + countCorrect t

/-- The text the driver writes to the output file (NB.py lines 137-149):
each predicted label followed by a newline, then `"\nAccuracy: "`, the
formatted accuracy and `"%"`.  `none` models an exception while
classifying and the `ZeroDivisionError` on an empty test corpus. -/
def driverOutput (test_docs : List Doc) (V : List String)
    (logprior : List (String × ℚ)) (loglikelihood : List ((String × String) × ℚ))
    (classes : List String) : Option String :=
  match test_docs.mapM
      (fun d => (test_naive_bayes d.1 V logprior loglikelihood classes).map
        fun p => (p, d.2)) with
  | none => none
  | some results =>
    if results.length = 0 then none
    else
      let accuracy : ℚ := (countCorrect results : ℚ) / (results.length : ℚ) * 100
      some (String.join (results.map fun r => r.1 ++ "\n") ++
        "\n" ++ "Accuracy: " ++ fmt2 accuracy ++ "%")

/-! ## Association-list lemmas -/

theorem dget_eq_none {α β : Type} [DecidableEq α] {l : List (α × β)} {k : α}
    (h : ∀ e ∈ l, e.1 ≠ k) : dget l k = none := by
  induction l with
  | nil => rfl
  | cons e t ih =>
    simp only [dget]
    rw [if_neg (h e (List.mem_cons_self e t))]
    exact ih fun e' he' => h e' (List.mem_cons_of_mem e he')

theorem dget_mem {α β : Type} [DecidableEq α] {l : List (α × β)} {k : α} {v : β}
    (h : dget l k = some v) : (k, v) ∈ l := by
  induction l with
  | nil => simp [dget] at h
  | cons e t ih =>
    simp only [dget] at h
    by_cases hk : e.1 = k
    · subst hk
      rw [if_pos rfl] at h
      cases h
      rw [Prod.mk.eta]
      exact List.mem_cons_self e t
    · rw [if_neg hk] at h
      exact List.mem_cons_of_mem e (ih h)

theorem dget_append {α β : Type} [DecidableEq α] (l₁ l₂ : List (α × β)) (k : α) :
    dget (l₁ ++ l₂) k =
      match dget l₁ k with
      | some v => some v
      | none => dget l₂ k := by
  induction l₁ with
  | nil => rfl
  | cons e t ih =>
    simp only [List.cons_append, dget, List.append_eq]
    by_cases hk : e.1 = k
    · rw [if_pos hk, if_pos hk]
    · rw [if_neg hk, if_neg hk, ih]

theorem mem_keys_of_dget_isSome {α β : Type} [DecidableEq α] {l : List (α × β)} {k : α}
    (h : (dget l k).isSome) : k ∈ l.map Prod.fst := by
  induction l with
  | nil => simp [dget] at h
  | cons e t ih =>
    simp only [dget] at h
    by_cases hk : e.1 = k
    · simp [hk]
    · rw [if_neg hk] at h
      simp [ih h]

/-! ## `updAdd`, `updSet`, `insertNew` lemmas -/

theorem updAdd_sum (bd : List (String × ℤ)) (w : String) (k : ℤ) :
    ((updAdd bd w k).map Prod.snd).sum = (bd.map Prod.snd).sum + k := by
  induction bd with
  | nil => simp [updAdd]
  | cons e t ih =>
    simp only [updAdd]
    by_cases hw : e.1 = w
    · rw [if_pos hw]
      simp [add_assoc, add_comm]
    · rw [if_neg hw]
      simp [ih, add_assoc]

theorem updAdd_keys (bd : List (String × ℤ)) (w : String) (k : ℤ) :
    (updAdd bd w k).map Prod.fst =
      if w ∈ bd.map Prod.fst then bd.map Prod.fst else bd.map Prod.fst ++ [w] := by
  induction bd with
  | nil => simp [updAdd]
  | cons e t ih =>
    simp only [updAdd]
    by_cases hw : e.1 = w
    · rw [if_pos hw]
      simp [hw]
    · rw [if_neg hw]
      simp only [List.map_cons, List.mem_cons, ih]
      by_cases hmem : w ∈ t.map Prod.fst
      · rw [if_pos hmem, if_pos (Or.inr hmem)]
      · rw [if_neg hmem, if_neg ?_]
        · simp
        · rintro (h | h)
          · exact hw h.symm
          · exact hmem h

theorem dget_updAdd_self (bd : List (String × ℤ)) (w : String) (k : ℤ) :
    dget (updAdd bd w k) w = some ((dget bd w).getD 0 + k) := by
  induction bd with
  | nil => simp [updAdd, dget]
  | cons e t ih =>
    simp only [updAdd]
    by_cases hw : e.1 = w
    · rw [if_pos hw]
      simp [dget, hw]
    · rw [if_neg hw]
      simp [dget, hw, ih]

theorem dget_updAdd_other (bd : List (String × ℤ)) (w x : String) (k : ℤ)
    (hx : x ≠ w) : dget (updAdd bd w k) x = dget bd x := by
  induction bd with
  | nil => simp [updAdd, dget, Ne.symm hx]
  | cons e t ih =>
    simp only [updAdd]
    by_cases hw : e.1 = w
    · rw [if_pos hw]
      simp only [dget]
      rw [if_neg (by rw [hw]; exact fun h => hx h.symm), if_neg (by rw [hw]; exact fun h => hx h.symm)]
    · rw [if_neg hw]
      simp only [dget]
      by_cases hex : e.1 = x
      · rw [if_pos hex, if_pos hex]
      · rw [if_neg hex, if_neg hex, ih]

theorem updSet_keys_mem (bd : List (String × ℤ)) (w x : String) (k : ℤ) :
    x ∈ (updSet bd w k).map Prod.fst ↔ x ∈ bd.map Prod.fst ∨ x = w := by
  induction bd with
  | nil => simp [updSet]
  | cons e t ih =>
    simp only [updSet]
    by_cases hw : e.1 = w
    · rw [if_pos hw]
      simp only [List.map_cons, List.mem_cons, hw]
      constructor
      · rintro (h | h)
        · exact Or.inr h
        · exact Or.inl (Or.inr h)
      · rintro ((h | h) | h)
        · exact Or.inl (hw ▸ h)
        · exact Or.inr h
        · exact Or.inl h
    · rw [if_neg hw]
      simp only [List.map_cons, List.mem_cons, ih]
      tauto

theorem insertNew_mem (l : List String) (w x : String) :
    x ∈ insertNew l w ↔ x ∈ l ∨ x = w := by
  unfold insertNew
  by_cases h : w ∈ l
  · rw [if_pos h]
    constructor
    · exact Or.inl
    · rintro (hx | hx)
      · exact hx
      · exact hx ▸ h
  · rw [if_neg h]
    simp

theorem insertNew_nodup {l : List String} (h : l.Nodup) (w : String) :
    (insertNew l w).Nodup := by
  unfold insertNew
  by_cases hm : w ∈ l
  · rwa [if_pos hm]
  · rw [if_neg hm]
    simp [List.nodup_append, h, hm]

/-! ## `pyMax` lemmas -/

theorem pyMaxGo_of_max {t : List (String × ℚ)} {c : String} {s : ℚ}
    (h : ∀ e ∈ t, e.2 ≤ s) : pyMaxGo c s t = c := by
  induction t with
  | nil => rfl
  | cons e t ih =>
    simp only [pyMaxGo]
    rw [if_neg (not_lt.2 (h e (List.mem_cons_self e t)))]
    exact ih fun e' he' => h e' (List.mem_cons_of_mem e he')

theorem pyMaxGo_spec (t : List (String × ℚ)) (c : String) (s : ℚ) :
    ∃ s', ((pyMaxGo c s t, s') = (c, s) ∨ (pyMaxGo c s t, s') ∈ t) ∧
      s ≤ s' ∧ ∀ e ∈ t, e.2 ≤ s' := by
  induction t generalizing c s with
  | nil => exact ⟨s, Or.inl rfl, le_refl s, by simp⟩
  | cons e t ih =>
    simp only [pyMaxGo]
    by_cases hlt : s < e.2
    · rw [if_pos hlt]
      obtain ⟨s', hmem, hle, hall⟩ := ih e.1 e.2
      refine ⟨s', ?_, le_of_lt (lt_of_lt_of_le hlt hle), ?_⟩
      · rcases hmem with hmem | hmem
        · right
          rw [hmem]
          simp
        · exact Or.inr (List.mem_cons_of_mem e hmem)
      · intro e' he'
        rcases List.mem_cons.1 he' with he' | he'
        · exact he' ▸ hle
        · exact hall e' he'
    · rw [if_neg hlt]
      obtain ⟨s', hmem, hle, hall⟩ := ih c s
      refine ⟨s', ?_, hle, ?_⟩
      · rcases hmem with hmem | hmem
        · exact Or.inl hmem
        · exact Or.inr (List.mem_cons_of_mem e hmem)
      · intro e' he'
        rcases List.mem_cons.1 he' with he' | he'
        · exact he' ▸ le_trans (not_lt.1 hlt) hle
        · exact hall e' he'

theorem pyMaxFst_spec {l : List (String × ℚ)} {r : String}
    (h : pyMaxFst l = some r) : ∃ s', (r, s') ∈ l ∧ ∀ e ∈ l, e.2 ≤ s' := by
  match l, h with
  | (c, s) :: t, h =>
    simp only [pyMaxFst] at h
    obtain ⟨s', hmem, hle, hall⟩ := pyMaxGo_spec t c s
    cases h
    refine ⟨s', ?_, ?_⟩
    · rcases hmem with hmem | hmem
      · rw [hmem]
        simp
      · exact List.mem_cons_of_mem _ hmem
    · intro e he
      rcases List.mem_cons.1 he with he | he
      · exact he ▸ hle
      · exact hall e he

theorem pyMaxGo_first {t : List (String × ℚ)} {i : ℕ} (hi : i < t.length)
    {c : String} {s : ℚ} (c0 : String) (s0 : ℚ)
    (hget : t.get ⟨i, hi⟩ = (c, s)) (hgt : s0 < s)
    (hmax : ∀ e ∈ t, e.2 ≤ s)
    (hfirst : ∀ j, (hj : j < i) → (t.get ⟨j, lt_trans hj hi⟩).2 < s) :
    pyMaxGo c0 s0 t = c := by
  induction t generalizing c0 s0 i with
  | nil => exact absurd hi (Nat.not_lt_zero i)
  | cons e t ih =>
    simp only [pyMaxGo]
    match i, hi with
    | 0, _ =>
      simp only [List.get] at hget
      subst hget
      rw [if_pos hgt]
      exact pyMaxGo_of_max fun e' he' => hmax e' (List.mem_cons_of_mem _ he')
    | i + 1, hi =>
      have hi' : i < t.length := Nat.lt_of_succ_lt_succ hi
      have hget' : t.get ⟨i, hi'⟩ = (c, s) := hget
      have he2 : e.2 < s := by
        have := hfirst 0 (Nat.succ_pos i)
        simpa using this
      have hmax' : ∀ e' ∈ t, e'.2 ≤ s := fun e' he' => hmax e' (List.mem_cons_of_mem e he')
      have hfirst' : ∀ j, (hj : j < i) → (t.get ⟨j, lt_trans hj hi'⟩).2 < s := by
        intro j hj
        have := hfirst (j + 1) (Nat.succ_lt_succ hj)
        simpa using this
      by_cases hlt : s0 < e.2
      · rw [if_pos hlt]
        exact ih hi' e.1 e.2 hget' he2 hmax' hfirst'
      · rw [if_neg hlt]
        exact ih hi' c0 s0 hget' hgt hmax' hfirst'

theorem pyMaxFst_first {l : List (String × ℚ)} {i : ℕ} (hi : i < l.length)
    {c : String} {s : ℚ}
    (hget : l.get ⟨i, hi⟩ = (c, s))
    (hmax : ∀ e ∈ l, e.2 ≤ s)
    (hfirst : ∀ j, (hj : j < i) → (l.get ⟨j, lt_trans hj hi⟩).2 < s) :
    pyMaxFst l = some c := by
  match l, hi with
  | e :: t, hi =>
    simp only [pyMaxFst]
    match i, hi with
    | 0, _ =>
      simp only [List.get] at hget
      rw [hget]
      simp only [Option.some.injEq]
      exact pyMaxGo_of_max fun e' he' => by
        rw [hget] at hmax
        exact hmax e' (List.mem_cons_of_mem _ he')
    | i + 1, hi =>
      have hi' : i < t.length := Nat.lt_of_succ_lt_succ hi
      have he2 : e.2 < s := by
        have := hfirst 0 (Nat.succ_pos i)
        simpa using this
      simp only [Option.some.injEq]
      refine pyMaxGo_first hi' e.1 e.2 hget ?_ ?_ ?_
      · exact he2
      · exact fun e' he' => hmax e' (List.mem_cons_of_mem e he')
      · intro j hj
        have := hfirst (j + 1) (Nat.succ_lt_succ hj)
        simpa using this

/-! ## `mapM` characterization over `Option` -/

theorem mapM_cons_eq_some {ι γ : Type} {g : ι → Option γ} {a : ι} {t : List ι}
    {res : List γ} (h : ((a :: t).mapM g) = some res) :
    ∃ v rest, g a = some v ∧ t.mapM g = some rest ∧ res = v :: rest := by
  rw [List.mapM_cons] at h
  rcases hga : g a with _ | v
  · rw [hga] at h
    simp at h
  · rw [hga] at h
    rcases hrest : t.mapM g with _ | rest
    · rw [hrest] at h
      simp at h
    · rw [hrest] at h
      exact ⟨v, rest, rfl, rfl, (Option.some.inj h).symm⟩

theorem mapM_keyed_cons {ι α β : Type} {kf : ι → α} {f : ι → Option β}
    {a : ι} {t : List ι} {res : List (α × β)}
    (h : ((a :: t).mapM fun i => (f i).map fun v => (kf i, v)) = some res) :
    ∃ v rest, f a = some v ∧
      (t.mapM fun i => (f i).map fun v => (kf i, v)) = some rest ∧
      res = (kf a, v) :: rest := by
  obtain ⟨v', rest, hga, hrest, rfl⟩ := mapM_cons_eq_some h
  obtain ⟨v, hv, rfl⟩ := Option.map_eq_some'.1 hga
  exact ⟨v, rest, hv, hrest, rfl⟩

theorem mapM_keyed_dget {ι α β : Type} [DecidableEq ι] [DecidableEq α]
    (kf : ι → α) (hinj : Function.Injective kf) (f : ι → Option β) :
    ∀ {l : List ι} {res : List (α × β)},
      (l.mapM fun i => (f i).map fun v => (kf i, v)) = some res →
      ∀ i ∈ l, dget res (kf i) = f i := by
  intro l
  induction l with
  | nil => intro res h i hi; exact absurd hi (List.not_mem_nil i)
  | cons a t ih =>
    intro res h i hi
    obtain ⟨v, rest, hv, hrest, rfl⟩ := mapM_keyed_cons h
    rcases List.mem_cons.1 hi with rfl | hi
    · simp [dget, hv]
    · simp only [dget]
      by_cases hk : kf a = kf i
      · have hai : a = i := hinj hk
        rw [if_pos hk, ← hai, hv]
      · rw [if_neg hk]
        exact ih hrest i hi

theorem mapM_keyed_entries {ι α β : Type} [DecidableEq α]
    (kf : ι → α) (f : ι → Option β) :
    ∀ {l : List ι} {res : List (α × β)},
      (l.mapM fun i => (f i).map fun v => (kf i, v)) = some res →
      ∀ e ∈ res, ∃ i ∈ l, kf i = e.1 ∧ f i = some e.2 := by
  intro l
  induction l with
  | nil =>
    intro res h e he
    simp only [List.mapM_nil, Option.pure_def, Option.some.injEq] at h
    subst h
    simp at he
  | cons a t ih =>
    intro res h e he
    obtain ⟨v, rest, hv, hrest, rfl⟩ := mapM_keyed_cons h
    rcases List.mem_cons.1 he with rfl | he
    · exact ⟨a, List.mem_cons_self a t, rfl, hv⟩
    · obtain ⟨i, hi, hk, hf⟩ := ih hrest e he
      exact ⟨i, List.mem_cons_of_mem a hi, hk, hf⟩

theorem mapM_keyed_isSome {ι α β : Type}
    (kf : ι → α) (f : ι → Option β) :
    ∀ {l : List ι} {res : List (α × β)},
      (l.mapM fun i => (f i).map fun v => (kf i, v)) = some res →
      ∀ i ∈ l, ∃ v, f i = some v := by
  intro l
  induction l with
  | nil => intro res h i hi; exact absurd hi (List.not_mem_nil i)
  | cons a t ih =>
    intro res h i hi
    obtain ⟨v, rest, hv, hrest, rfl⟩ := mapM_keyed_cons h
    rcases List.mem_cons.1 hi with rfl | hi
    · exact ⟨v, hv⟩
    · exact ih hrest i hi

theorem mapM_keyed_length {ι α β : Type}
    (kf : ι → α) (f : ι → Option β) :
    ∀ {l : List ι} {res : List (α × β)},
      (l.mapM fun i => (f i).map fun v => (kf i, v)) = some res →
      res.length = l.length := by
  intro l
  induction l with
  | nil =>
    intro res h
    simp only [List.mapM_nil, Option.pure_def, Option.some.injEq] at h
    subst h
    rfl
  | cons a t ih =>
    intro res h
    obtain ⟨v, rest, hv, hrest, rfl⟩ := mapM_keyed_cons h
    simp [ih hrest]

theorem mapM_keyed_get {ι α β : Type}
    (kf : ι → α) (f : ι → Option β) :
    ∀ {l : List ι} {res : List (α × β)},
      (l.mapM fun i => (f i).map fun v => (kf i, v)) = some res →
      ∀ (j : ℕ) (hj : j < res.length) (hj' : j < l.length),
        (res.get ⟨j, hj⟩).1 = kf (l.get ⟨j, hj'⟩) ∧
          f (l.get ⟨j, hj'⟩) = some (res.get ⟨j, hj⟩).2 := by
  intro l
  induction l with
  | nil =>
    intro res h j hj hj'
    exact absurd hj' (Nat.not_lt_zero j)
  | cons a t ih =>
    intro res h j hj hj'
    obtain ⟨v, rest, hv, hrest, rfl⟩ := mapM_keyed_cons h
    match j with
    | 0 => exact ⟨rfl, hv⟩
    | j + 1 =>
      exact ih hrest j (Nat.lt_of_succ_lt_succ hj) (Nat.lt_of_succ_lt_succ hj')

/-! ## Vocabulary and `bigdoc` lemmas -/

theorem mem_foldl_insertNew (ps : List (String × ℤ)) (acc : List String) (x : String) :
    x ∈ ps.foldl (fun a p => insertNew a p.1) acc ↔ x ∈ acc ∨ ∃ p ∈ ps, p.1 = x := by
  induction ps generalizing acc with
  | nil => simp
  | cons p t ih =>
    simp only [List.foldl_cons, ih, insertNew_mem, List.mem_cons]
    constructor
    · rintro ((h | h) | ⟨q, hq, hx⟩)
      · exact Or.inl h
      · exact Or.inr ⟨p, Or.inl rfl, h.symm⟩
      · exact Or.inr ⟨q, Or.inr hq, hx⟩
    · rintro (h | ⟨q, hq | hq, hx⟩)
      · exact Or.inl (Or.inl h)
      · exact Or.inl (Or.inr (hq ▸ hx.symm))
      · exact Or.inr ⟨q, hq, hx⟩

theorem nodup_foldl_insertNew (ps : List (String × ℤ)) {acc : List String}
    (h : acc.Nodup) : (ps.foldl (fun a p => insertNew a p.1) acc).Nodup := by
  induction ps generalizing acc with
  | nil => exact h
  | cons p t ih => exact ih (insertNew_nodup h p.1)

theorem mem_computeV (documents : List Doc) (x : String) :
    x ∈ computeV documents ↔ ∃ d ∈ documents, ∃ p ∈ d.1, p.1 = x := by
  have key : ∀ (docs : List Doc) (acc : List String),
      x ∈ docs.foldl (fun V d => d.1.foldl (fun V2 p => insertNew V2 p.1) V) acc ↔
        x ∈ acc ∨ ∃ d ∈ docs, ∃ p ∈ d.1, p.1 = x := by
    intro docs
    induction docs with
    | nil => simp
    | cons d t ih =>
      intro acc
      simp only [List.foldl_cons, ih, mem_foldl_insertNew, List.mem_cons]
      constructor
      · rintro ((h | ⟨p, hp, hx⟩) | ⟨d', hd', hp⟩)
        · exact Or.inl h
        · exact Or.inr ⟨d, Or.inl rfl, p, hp, hx⟩
        · exact Or.inr ⟨d', Or.inr hd', hp⟩
      · rintro (h | ⟨d', hd' | hd', p, hp, hx⟩)
        · exact Or.inl (Or.inl h)
        · exact Or.inl (Or.inr ⟨p, hd' ▸ hp, hx⟩)
        · exact Or.inr ⟨d', hd', p, hp, hx⟩
  rw [computeV, key documents []]
  simp

theorem computeV_nodup (documents : List Doc) : (computeV documents).Nodup := by
  have key : ∀ (docs : List Doc) (acc : List String), acc.Nodup →
      (docs.foldl (fun V d => d.1.foldl (fun V2 p => insertNew V2 p.1) V) acc).Nodup := by
    intro docs
    induction docs with
    | nil => exact fun acc h => h
    | cons d t ih => exact fun acc h => ih _ (nodup_foldl_insertNew d.1 h)
  exact key documents [] List.nodup_nil

theorem keys_foldl_updAdd (ps : List (String × ℤ)) (bd : List (String × ℤ)) (x : String)
    (h : x ∈ (ps.foldl (fun b p => updAdd b p.1 p.2) bd).map Prod.fst) :
    x ∈ bd.map Prod.fst ∨ ∃ p ∈ ps, p.1 = x := by
  induction ps generalizing bd with
  | nil => exact Or.inl h
  | cons p t ih =>
    rcases ih (updAdd bd p.1 p.2) h with h' | h'
    · rw [updAdd_keys] at h'
      by_cases hmem : p.1 ∈ bd.map Prod.fst
      · rw [if_pos hmem] at h'
        exact Or.inl h'
      · rw [if_neg hmem] at h'
        rcases List.mem_append.1 h' with h' | h'
        · exact Or.inl h'
        · exact Or.inr ⟨p, List.mem_cons_self p t, (List.mem_singleton.1 h').symm⟩
    · obtain ⟨q, hq, hx⟩ := h'
      exact Or.inr ⟨q, List.mem_cons_of_mem p hq, hx⟩

theorem nodup_keys_foldl_updAdd (ps : List (String × ℤ)) {bd : List (String × ℤ)}
    (h : (bd.map Prod.fst).Nodup) :
    (((ps.foldl (fun b p => updAdd b p.1 p.2) bd).map Prod.fst)).Nodup := by
  induction ps generalizing bd with
  | nil => exact h
  | cons p t ih =>
    refine ih ?_
    rw [updAdd_keys]
    by_cases hmem : p.1 ∈ bd.map Prod.fst
    · rwa [if_pos hmem]
    · rw [if_neg hmem]
      simp [List.nodup_append, h, hmem]

theorem bigdocFor_keys_sub (documents : List Doc) (c : String) (x : String)
    (h : x ∈ (bigdocFor documents c).map Prod.fst) : x ∈ computeV documents := by
  have key : ∀ (docs : List Doc) (bd : List (String × ℤ)),
      x ∈ ((docs.foldl
        (fun bd d => if d.2 = c then d.1.foldl (fun b2 p => updAdd b2 p.1 p.2) bd else bd)
        bd).map Prod.fst) →
      x ∈ bd.map Prod.fst ∨ ∃ d ∈ docs, ∃ p ∈ d.1, p.1 = x := by
    intro docs
    induction docs with
    | nil => exact fun bd h' => Or.inl h'
    | cons d t ih =>
      intro bd h'
      simp only [List.foldl_cons] at h'
      by_cases hd : d.2 = c
      · rw [if_pos hd] at h'
        rcases ih _ h' with h'' | h''
        · rcases keys_foldl_updAdd d.1 bd x h'' with h3 | h3
          · exact Or.inl h3
          · obtain ⟨p, hp, hx⟩ := h3
            exact Or.inr ⟨d, List.mem_cons_self d t, p, hp, hx⟩
        · obtain ⟨d', hd', hp⟩ := h''
          exact Or.inr ⟨d', List.mem_cons_of_mem d hd', hp⟩
      · rw [if_neg hd] at h'
        rcases ih _ h' with h'' | h''
        · exact Or.inl h''
        · obtain ⟨d', hd', hp⟩ := h''
          exact Or.inr ⟨d', List.mem_cons_of_mem d hd', hp⟩
  rcases key documents [] h with h' | h'
  · simp at h'
  · exact (mem_computeV documents x).2 h'

theorem bigdocFor_keys_nodup (documents : List Doc) (c : String) :
    ((bigdocFor documents c).map Prod.fst).Nodup := by
  have key : ∀ (docs : List Doc) (bd : List (String × ℤ)), (bd.map Prod.fst).Nodup →
      (((docs.foldl
        (fun bd d => if d.2 = c then d.1.foldl (fun b2 p => updAdd b2 p.1 p.2) bd else bd)
        bd).map Prod.fst)).Nodup := by
    intro docs
    induction docs with
    | nil => exact fun bd h => h
    | cons d t ih =>
      intro bd h
      simp only [List.foldl_cons]
      by_cases hd : d.2 = c
      · rw [if_pos hd]
        exact ih _ (nodup_keys_foldl_updAdd d.1 h)
      · rw [if_neg hd]
        exact ih _ h
  exact key documents [] List.nodup_nil

/-- Summing `dget · |>.getD 0` over a finite set of keys containing every key
of a duplicate-free association list yields the sum of the list's values. -/
theorem sum_dget_getD (bd : List (String × ℤ)) (S : Finset String)
    (hnd : (bd.map Prod.fst).Nodup) (hsub : ∀ k ∈ bd.map Prod.fst, k ∈ S) :
    (∑ w ∈ S, (dget bd w).getD 0) = (bd.map Prod.snd).sum := by
  induction bd generalizing S with
  | nil => simp [dget]
  | cons e t ih =>
    have hkS : e.1 ∈ S := hsub e.1 (by simp)
    have hknotin : e.1 ∉ t.map Prod.fst := by
      simp only [List.map_cons, List.nodup_cons] at hnd
      exact hnd.1
    have hnd' : (t.map Prod.fst).Nodup := by
      simp only [List.map_cons, List.nodup_cons] at hnd
      exact hnd.2
    have hsub' : ∀ k ∈ t.map Prod.fst, k ∈ S := by
      intro k hk
      exact hsub k (by simp [hk])
    have step : ∀ w ∈ S, (dget (e :: t) w).getD 0 =
        (if e.1 = w then e.2 else 0) + (dget t w).getD 0 := by
      intro w _
      simp only [dget]
      by_cases hw : e.1 = w
      · rw [if_pos hw, if_pos hw]
        have : dget t w = none := by
          refine dget_eq_none fun p hp hpk => ?_
          exact hknotin (hw ▸ hpk ▸ List.mem_map_of_mem Prod.fst hp)
        simp [this]
      · rw [if_neg hw, if_neg hw]
        simp
    rw [Finset.sum_congr rfl step, Finset.sum_add_distrib, ih S hnd' hsub']
    have : (∑ w ∈ S, if e.1 = w then e.2 else 0) = e.2 := by
      rw [Finset.sum_ite_eq S e.1 fun _ => e.2, if_pos hkS]
    rw [this]
    simp

/-! ## Trainer lemmas -/

theorem priorProb_eq_some {documents : List Doc} {c : String} {q : ℚ}
    (h : priorProb documents c = some q) :
    0 < q ∧ documents.length ≠ 0 ∧
      q = (countLabel documents c : ℚ) / (documents.length : ℚ) := by
  unfold priorProb at h
  by_cases hN : documents.length = 0
  · rw [if_pos hN] at h
    cases h
  · rw [if_neg hN] at h
    simp only at h
    by_cases hp : 0 < (countLabel documents c : ℚ) / (documents.length : ℚ)
    · rw [if_pos hp] at h
      cases h
      exact ⟨hp, hN, rfl⟩
    · rw [if_neg hp] at h
      cases h

theorem likeProb_eq_some {V : List String} {bd : List (String × ℤ)} {w : String} {q : ℚ}
    (h : likeProb V bd w = some q) :
    0 < q ∧ ((bd.map Prod.snd).sum + (V.length : ℤ)) ≠ 0 ∧
      q = (((dget bd w).getD 0 + 1 : ℤ) : ℚ) /
          (((bd.map Prod.snd).sum + (V.length : ℤ) : ℤ) : ℚ) := by
  unfold likeProb at h
  by_cases hT : ((bd.map Prod.snd).sum + (V.length : ℤ)) = 0
  · rw [if_pos hT] at h
    cases h
  · rw [if_neg hT] at h
    simp only at h
    by_cases hp : 0 < ((((dget bd w).getD 0 + 1 : ℤ) : ℚ) /
        (((bd.map Prod.snd).sum + (V.length : ℤ) : ℤ) : ℚ))
    · rw [if_pos hp] at h
      cases h
      exact ⟨hp, hT, rfl⟩
    · rw [if_neg hp] at h
      cases h

theorem train_eq_some {documents : List Doc} {classes : List String} {m : Model}
    (h : train_naive_bayes documents classes = some m) :
    (∀ d ∈ documents, d.2 ∈ classes) ∧
    ∃ lp blocks, priorsFor documents classes = some lp ∧
      (classes.mapM fun c =>
        likelihoodFor (computeV documents) (bigdocFor documents c) c) = some blocks ∧
      m = ⟨computeV documents, lp, blocks.flatten⟩ := by
  unfold train_naive_bayes at h
  by_cases hall : documents.all (fun d => d.2 ∈ classes)
  · rw [if_pos hall] at h
    simp only at h
    rcases h1 : priorsFor documents classes with _ | lp
    · rw [h1] at h
      cases h
    · rw [h1] at h
      rcases h2 : (classes.mapM fun c =>
          likelihoodFor (computeV documents) (bigdocFor documents c) c) with _ | blocks
      · rw [h2] at h
        cases h
      · rw [h2] at h
        cases h
        exact ⟨by simpa [List.all_eq_true] using hall, lp, blocks, rfl, rfl, rfl⟩
  · rw [if_neg hall] at h
    cases h

theorem train_like_dget {documents : List Doc} {V : List String}
    {classes : List String} {blocks : List (List ((String × String) × ℚ))}
    (hmapM : (classes.mapM fun c =>
      likelihoodFor V (bigdocFor documents c) c) = some blocks)
    {c : String} (hc : c ∈ classes) {w : String} (hw : w ∈ V) :
    dget blocks.flatten (w, c) = likeProb V (bigdocFor documents c) w := by
  induction classes generalizing blocks with
  | nil => exact absurd hc (List.not_mem_nil c)
  | cons c0 t ih =>
    obtain ⟨b0, rest, hb0, hrest, rfl⟩ := mapM_cons_eq_some hmapM
    rw [List.flatten_cons, dget_append]
    by_cases hcc : c = c0
    · subst hcc
      have hdget : dget b0 (w, c) = likeProb V (bigdocFor documents c) w :=
        mapM_keyed_dget (fun w => (w, c))
          (fun a b hab => congrArg Prod.fst hab) _ hb0 w hw
      obtain ⟨v, hv⟩ := mapM_keyed_isSome (fun w => (w, c)) _ hb0 w hw
      rw [hdget, hv]
    · have hnone : dget b0 (w, c) = none := by
        refine dget_eq_none fun e he hek => ?_
        obtain ⟨i, _, hk, _⟩ := mapM_keyed_entries (fun w => (w, c0)) _ hb0 e he
        exact hcc (by
          have := hek ▸ hk
          exact (congrArg Prod.snd this).symm)
      rw [hnone]
      exact ih hrest (by
        rcases List.mem_cons.1 hc with h | h
        · exact absurd h hcc
        · exact h)

theorem train_like_entries_pos {documents : List Doc} {V : List String}
    {classes : List String} {blocks : List (List ((String × String) × ℚ))}
    (hmapM : (classes.mapM fun c =>
      likelihoodFor V (bigdocFor documents c) c) = some blocks) :
    ∀ e ∈ blocks.flatten, (0 : ℚ) < e.2 := by
  induction classes generalizing blocks with
  | nil =>
    simp only [List.mapM_nil, Option.pure_def, Option.some.injEq] at hmapM
    subst hmapM
    simp
  | cons c0 t ih =>
    obtain ⟨b0, rest, hb0, hrest, rfl⟩ := mapM_cons_eq_some hmapM
    intro e he
    rw [List.flatten_cons] at he
    rcases List.mem_append.1 he with he | he
    · obtain ⟨i, _, _, hf⟩ := mapM_keyed_entries (fun w => (w, c0)) _ hb0 e he
      exact (likeProb_eq_some hf).1
    · exact ih hrest e he

/-! ## Classifier lemmas -/

theorem prodFactor_nil (V : List String) (ll : List ((String × String) × ℚ))
    (c : String) : prodFactor [] V ll c = 1 := rfl

theorem prodFactor_cons (p : String × ℤ) (t : WordCounts) (V : List String)
    (ll : List ((String × String) × ℚ)) (c : String) :
    prodFactor (p :: t) V ll c =
      (if p.1 ∈ V then ((dget ll (p.1, c)).getD 1) ^ p.2 else 1) *
        prodFactor t V ll c := by
  simp [prodFactor]

theorem prodFactor_of_absent {word_counts : WordCounts} {V : List String}
    (ll : List ((String × String) × ℚ)) (c : String)
    (habs : ∀ p ∈ word_counts, p.1 ∉ V) :
    prodFactor word_counts V ll c = 1 := by
  induction word_counts with
  | nil => rfl
  | cons p t ih =>
    rw [prodFactor_cons, if_neg (habs p (List.mem_cons_self p t))]
    rw [ih fun p' hp' => habs p' (List.mem_cons_of_mem p hp')]
    simp

theorem classifyScores_eq (word_counts : WordCounts) (V : List String)
    (logprior : List (String × ℚ)) (loglikelihood : List ((String × String) × ℚ))
    (classes : List String) :
    classifyScores word_counts V logprior loglikelihood classes =
      (classes.mapM fun c => (dget logprior c).map fun p => (c, p)).map
        fun init => init.map fun e =>
          (e.1, e.2 * prodFactor word_counts V loglikelihood e.1) := by
  have key : ∀ init : List (String × ℚ),
      word_counts.foldl
        (fun scores p =>
          if p.1 ∈ V then
            scores.map fun e =>
              (e.1, e.2 * ((dget loglikelihood (p.1, e.1)).getD 1) ^ p.2)
          else scores)
        init =
      init.map fun e => (e.1, e.2 * prodFactor word_counts V loglikelihood e.1) := by
    induction word_counts with
    | nil =>
      intro init
      simp [prodFactor_nil]
    | cons p t ih =>
      intro init
      rw [List.foldl_cons]
      by_cases hp : p.1 ∈ V
      · rw [if_pos hp, ih, List.map_map]
        refine List.map_congr_left fun e _ => ?_
        simp only [Function.comp_apply, prodFactor_cons, if_pos hp]
        rw [mul_assoc]
      · rw [if_neg hp, ih]
        refine List.map_congr_left fun e _ => ?_
        simp only [prodFactor_cons, if_neg hp]
        rw [one_mul]
  unfold classifyScores
  rcases hinit : (classes.mapM fun c => (dget logprior c).map fun p => (c, p)) with _ | init
  · rfl
  · simp only [Option.map_some']
    exact congrArg some (key init)

/-! ## Loader lemmas -/

theorem foldlM_option_append {σ α : Type} (f : σ → α → Option σ) (s : σ)
    (l₁ l₂ : List α) :
    (l₁ ++ l₂).foldlM f s = (l₁.foldlM f s).bind fun s' => l₂.foldlM f s' := by
  have hcons : ∀ (s : σ) (a : α) (l : List α),
      (a :: l).foldlM f s = (f s a).bind fun s' => l.foldlM f s' := fun _ _ _ => rfl
  induction l₁ generalizing s with
  | nil => rfl
  | cons a t ih =>
    rw [List.cons_append, hcons, hcons]
    rcases hfa : f s a with _ | s'
    · rfl
    · exact ih s'

theorem foldlM_option_cons_eq_some {σ α : Type} {f : σ → α → Option σ} {s : σ}
    {a : α} {t : List α} {r : σ} (h : (a :: t).foldlM f s = some r) :
    ∃ s', f s a = some s' ∧ t.foldlM f s' = some r := by
  rcases hfa : f s a with _ | s'
  · rw [show (a :: t).foldlM f s = (f s a).bind fun s' => t.foldlM f s' from rfl,
      hfa] at h
    cases h
  · rw [show (a :: t).foldlM f s = (f s a).bind fun s' => t.foldlM f s' from rfl,
      hfa] at h
    exact ⟨s', rfl, h⟩

theorem parseSegs_none {segs : List String} (h : ∃ s ∈ segs, parseSeg s = none) :
    ∀ wc vocab, parseSegs segs wc vocab = none := by
  induction segs with
  | nil => simp at h
  | cons s t ih =>
    intro wc vocab
    obtain ⟨s', hs', hnone⟩ := h
    rcases List.mem_cons.1 hs' with rfl | hs'
    · simp [parseSegs, hnone]
    · simp only [parseSegs]
      rcases hp : parseSeg s with _ | p
      · rfl
      · exact ih ⟨s', hs', hnone⟩ _ _

theorem parseSegs_mem {segs : List String} :
    ∀ {wc : WordCounts} {vocab : List String} {wc' : WordCounts}
      {vocab' : List String},
      parseSegs segs wc vocab = some (wc', vocab') → ∀ x : String,
      (x ∈ vocab' ↔ x ∈ vocab ∨ ∃ s ∈ segs, ∃ p, parseSeg s = some p ∧ p.1 = x) ∧
      (x ∈ wc'.map Prod.fst ↔
        x ∈ wc.map Prod.fst ∨ ∃ s ∈ segs, ∃ p, parseSeg s = some p ∧ p.1 = x) := by
  induction segs with
  | nil =>
    intro wc vocab wc' vocab' h x
    simp only [parseSegs, Option.some.injEq, Prod.mk.injEq] at h
    obtain ⟨rfl, rfl⟩ := h
    simp
  | cons s t ih =>
    intro wc vocab wc' vocab' h x
    simp only [parseSegs] at h
    rcases hp : parseSeg s with _ | p
    · rw [hp] at h
      cases h
    · rw [hp] at h
      obtain ⟨h1, h2⟩ := ih h x
      constructor
      · rw [h1, insertNew_mem]
        constructor
        · rintro ((hx | hx) | ⟨s', hs', q, hq, hqx⟩)
          · exact Or.inl hx
          · exact Or.inr ⟨s, List.mem_cons_self s t, p, hp, hx.symm⟩
          · exact Or.inr ⟨s', List.mem_cons_of_mem s hs', q, hq, hqx⟩
        · rintro (hx | ⟨s', hs', q, hq, hqx⟩)
          · exact Or.inl (Or.inl hx)
          · rcases List.mem_cons.1 hs' with rfl | hs'
            · rw [hp] at hq
              cases hq
              exact Or.inl (Or.inr hqx.symm)
            · exact Or.inr ⟨s', hs', q, hq, hqx⟩
      · rw [h2, updSet_keys_mem]
        constructor
        · rintro ((hx | hx) | ⟨s', hs', q, hq, hqx⟩)
          · exact Or.inl hx
          · exact Or.inr ⟨s, List.mem_cons_self s t, p, hp, hx.symm⟩
          · exact Or.inr ⟨s', List.mem_cons_of_mem s hs', q, hq, hqx⟩
        · rintro (hx | ⟨s', hs', q, hq, hqx⟩)
          · exact Or.inl (Or.inl hx)
          · rcases List.mem_cons.1 hs' with rfl | hs'
            · rw [hp] at hq
              cases hq
              exact Or.inl (Or.inr hqx.symm)
            · exact Or.inr ⟨s', hs', q, hq, hqx⟩

theorem load_fold_vocab :
    ∀ (lines : List (List String)) (acc : List Doc × List String)
      (docs : List Doc) (voc : List String),
      lines.foldlM loadStep acc = some (docs, voc) →
      (∀ x, x ∈ acc.2 ↔ ∃ d ∈ acc.1, ∃ p ∈ d.1, p.1 = x) →
      ∀ x, x ∈ voc ↔ ∃ d ∈ docs, ∃ p ∈ d.1, p.1 = x := by
  intro lines
  induction lines with
  | nil =>
    intro acc docs voc h hinv x
    simp only [List.foldlM_nil, Option.pure_def, Option.some.injEq] at h
    subst h
    simpa using hinv x
  | cons line t ih =>
    intro acc docs voc h hinv x
    obtain ⟨acc', hstep, hrest⟩ := foldlM_option_cons_eq_some h
    refine ih acc' docs voc hrest ?_ x
    intro y
    match line, hstep with
    | [], hstep =>
      cases hstep
      exact hinv y
    | label :: segs, hstep =>
      simp only [loadStep] at hstep
      rcases hp : parseSegs segs [] acc.2 with _ | r
      · rw [hp] at hstep
        cases hstep
      · rw [hp] at hstep
        cases hstep
        obtain ⟨h1, h2⟩ := parseSegs_mem hp y
        simp only [List.map_nil, List.not_mem_nil, false_or] at h1 h2
        constructor
        · intro hy
          rcases h1.1 hy with hy' | hy'
          · obtain ⟨d, hd, hpd⟩ := (hinv y).1 hy'
            exact ⟨d, List.mem_append_left _ hd, hpd⟩
          · refine ⟨(r.1, label), List.mem_append_right _ (by simp), ?_⟩
            rw [← h2] at hy'
            obtain ⟨p, hp', hpx⟩ := List.mem_map.1 hy'
            exact ⟨p, hp', hpx⟩
        · rintro ⟨d, hd, p, hpd, hpx⟩
          rcases List.mem_append.1 hd with hd | hd
          · exact h1.2 (Or.inl ((hinv y).2 ⟨d, hd, p, hpd, hpx⟩))
          · simp only [List.mem_singleton] at hd
            subst hd
            refine h1.2 (Or.inr ?_)
            rw [← h2]
            exact List.mem_map.2 ⟨p, hpd, hpx⟩

/-! ## The concrete scenario of the spec (section 8)

Training set `{"pos great:2 movie:1", "neg bad:2 movie:1"}` with classes
`{pos, neg}`. -/

def C1docs : List Doc :=
  [([("great", 2), ("movie", 1)], "pos"), ([("bad", 2), ("movie", 1)], "neg")]

def C1classes : List String := ["pos", "neg"]

/-- The model `train_naive_bayes` produces on the concrete scenario; the
rationals are the probabilities whose logarithms Python stores. -/
def C1model : Model :=
  ⟨["great", "movie", "bad"],
   [("pos", 1/2), ("neg", 1/2)],
   [(("great", "pos"), 1/2), (("movie", "pos"), 1/3), (("bad", "pos"), 1/6),
    (("great", "neg"), 1/6), (("movie", "neg"), 1/3), (("bad", "neg"), 1/2)]⟩

theorem train_C1 : train_naive_bayes C1docs C1classes = some C1model := by
  simp [train_naive_bayes, priorsFor, priorProb, likelihoodFor, likeProb, bigdocFor,
    computeV, C1docs, C1classes, C1model, countLabel, insertNew, updAdd, dget,
    List.mapM.loop]
  norm_num

/-- C1: training on `{"pos great:2 movie:1", "neg bad:2 movie:1"}` with
classes `{pos, neg}` yields `V = {great, movie, bad}`,
`logprior[pos] = logprior[neg] = ln(1/2)`, for class `pos` a denominator of
6 with `loglikelihood[(great,pos)] = ln(3/6)`,
`loglikelihood[(movie,pos)] = ln(2/6)`, `loglikelihood[(bad,pos)] = ln(1/6)`;
classifying `{"great": 1}` returns `"pos"`, its score strictly higher
than that of `"neg"`. -/
theorem spec_C1 :
    train_naive_bayes C1docs C1classes = some C1model ∧
    C1model.V = ["great", "movie", "bad"] ∧
    logpriorR C1model.prior "pos" = Real.log (1/2 : ℝ) ∧
    logpriorR C1model.prior "neg" = Real.log (1/2 : ℝ) ∧
    ((bigdocFor C1docs "pos").map Prod.snd).sum + ((computeV C1docs).length : ℤ) = 6 ∧
    loglikelihoodR C1model.like "great" "pos" = Real.log ((3 : ℝ)/6) ∧
    loglikelihoodR C1model.like "movie" "pos" = Real.log ((2 : ℝ)/6) ∧
    loglikelihoodR C1model.like "bad" "pos" = Real.log ((1 : ℝ)/6) ∧
    test_naive_bayes [("great", 1)] C1model.V C1model.prior C1model.like C1classes =
      some "pos" ∧
    scoreR [("great", 1)] C1model.V C1model.prior C1model.like "neg" <
      scoreR [("great", 1)] C1model.V C1model.prior C1model.like "pos" := by
  refine ⟨train_C1, rfl, ?_, ?_, ?_, ?_, ?_, ?_, ?_, ?_⟩
  · simp [logpriorR, C1model, dget]
  · simp [logpriorR, C1model, dget]
  · simp [bigdocFor, computeV, C1docs, updAdd, insertNew]
  · unfold loglikelihoodR
    refine congrArg Real.log ?_
    norm_num [C1model, dget]
  · unfold loglikelihoodR
    refine congrArg Real.log ?_
    simp [C1model, dget]
    norm_num
  · unfold loglikelihoodR
    refine congrArg Real.log ?_
    simp [C1model, dget]
  · simp [test_naive_bayes, classifyScores, C1model, C1classes, dget,
      pyMaxFst, pyMaxGo, List.mapM.loop]
    norm_num
  · have hlog : Real.log (2 : ℝ) < Real.log (6 : ℝ) :=
      Real.log_lt_log (by norm_num) (by norm_num)
    simp only [scoreR, logpriorR, C1model, dget]
    simp
    linarith

theorem mapM_exists_of_mem {ι γ : Type} {g : ι → Option γ} :
    ∀ {l : List ι} {res : List γ}, l.mapM g = some res →
      ∀ i ∈ l, ∃ v, g i = some v := by
  intro l
  induction l with
  | nil => intro res h i hi; exact absurd hi (List.not_mem_nil i)
  | cons a t ih =>
    intro res h i hi
    obtain ⟨v, rest, hv, hrest, rfl⟩ := mapM_cons_eq_some h
    rcases List.mem_cons.1 hi with rfl | hi
    · exact ⟨v, hv⟩
    · exact ih hrest i hi

/-- C2: for every training run that returns, the loglikelihood table has an
entry for every pair of a vocabulary word and a class, the entry is the
smoothed ratio `(count + 1) / (total + |V|)`, and it is strictly positive
(so its logarithm is finite). -/
theorem spec_C2 {documents : List Doc} {classes : List String} {m : Model}
    (h : train_naive_bayes documents classes = some m)
    {w c : String} (hw : w ∈ m.V) (hc : c ∈ classes) :
    ∃ q, dget m.like (w, c) = some q ∧ 0 < q ∧
      q = (((dget (bigdocFor documents c) w).getD 0 + 1 : ℤ) : ℚ) /
          ((((bigdocFor documents c).map Prod.snd).sum + (m.V.length : ℤ) : ℤ) : ℚ) := by
  obtain ⟨hall, lp, blocks, hlp, hblocks, rfl⟩ := train_eq_some h
  obtain ⟨b, hb⟩ := mapM_exists_of_mem hblocks c hc
  have hdget := train_like_dget hblocks hc (w := w) hw
  obtain ⟨q, hq⟩ := mapM_keyed_isSome (fun w => (w, c)) _ hb w hw
  obtain ⟨hpos, hT, hval⟩ := likeProb_eq_some hq
  refine ⟨q, ?_, hpos, ?_⟩
  · rw [show (⟨computeV documents, lp, blocks.flatten⟩ : Model).like = blocks.flatten
      from rfl, hdget, hq]
  · exact hval

theorem spec_C2_witness :
    ∃ q, dget C1model.like ("bad", "pos") = some q ∧ 0 < q ∧
      q = (((dget (bigdocFor C1docs "pos") "bad").getD 0 + 1 : ℤ) : ℚ) /
          ((((bigdocFor C1docs "pos").map Prod.snd).sum + (C1model.V.length : ℤ) : ℤ) : ℚ) :=
  spec_C2 train_C1 (by simp [C1model]) (by simp [C1classes])

/-- Each training document contributes to exactly one class count, so the
per-class counts over any set of labels covering the corpus sum to the
corpus size. -/
theorem sum_countLabel {documents : List Doc} {S : Finset String}
    (h : ∀ d ∈ documents, d.2 ∈ S) :
    ∑ c ∈ S, countLabel documents c = documents.length := by
  induction documents with
  | nil => simp [countLabel]
  | cons d t ih =>
    simp only [countLabel]
    rw [Finset.sum_add_distrib]
    rw [ih fun d' hd' => h d' (List.mem_cons_of_mem d hd')]
    have hone : (∑ c ∈ S, if d.2 = c then 1 else 0) = 1 := by
      rw [Finset.sum_ite_eq S d.2 fun _ => 1, if_pos (h d (List.mem_cons_self d t))]
    rw [hone]
    simp [Nat.add_comm]

/-- C4: when training returns on a non-empty corpus, every class's prior is
the unsmoothed ratio `count(c) / N_doc` (so its log-prior is the logarithm
of that ratio), and the priors sum to 1 exactly. -/
theorem spec_C4 {documents : List Doc} {classes : List String} {m : Model}
    (hne : documents ≠ [])
    (h : train_naive_bayes documents classes = some m) :
    (∀ c ∈ classes, dget m.prior c =
        some ((countLabel documents c : ℚ) / (documents.length : ℚ)) ∧
      logpriorR m.prior c =
        Real.log (((countLabel documents c : ℚ) / (documents.length : ℚ) : ℚ) : ℝ)) ∧
    ∑ c ∈ classes.toFinset, Real.exp (logpriorR m.prior c) = 1 := by
  obtain ⟨hall, lp, blocks, hlp, hblocks, rfl⟩ := train_eq_some h
  have hprior : (⟨computeV documents, lp, blocks.flatten⟩ : Model).prior = lp := rfl
  rw [hprior]
  have hdget : ∀ c ∈ classes, dget lp c = priorProb documents c :=
    mapM_keyed_dget id (fun a b hab => hab) _ hlp
  have hsome : ∀ c ∈ classes, ∃ v, priorProb documents c = some v :=
    mapM_keyed_isSome id _ hlp
  have hval : ∀ c ∈ classes, dget lp c =
      some ((countLabel documents c : ℚ) / (documents.length : ℚ)) := by
    intro c hc
    obtain ⟨v, hv⟩ := hsome c hc
    obtain ⟨hvpos, hN, hveq⟩ := priorProb_eq_some hv
    rw [hdget c hc, hv, hveq]
  have hlogR : ∀ c ∈ classes, logpriorR lp c =
      Real.log (((countLabel documents c : ℚ) / (documents.length : ℚ) : ℚ) : ℝ) := by
    intro c hc
    rw [logpriorR, hval c hc]
    rfl
  refine ⟨fun c hc => ⟨hval c hc, hlogR c hc⟩, ?_⟩
  have hNne : (documents.length : ℝ) ≠ 0 := by
    simpa using fun hlen => hne (List.length_eq_zero.1 hlen)
  have hpt : ∀ c ∈ classes.toFinset, Real.exp (logpriorR lp c) =
      (countLabel documents c : ℝ) / (documents.length : ℝ) := by
    intro c hc
    rw [List.mem_toFinset] at hc
    rw [hlogR c hc]
    have hcountpos : (0 : ℚ) < (countLabel documents c : ℚ) / (documents.length : ℚ) := by
      obtain ⟨v, hv⟩ := hsome c hc
      obtain ⟨hvpos, _, hveq⟩ := priorProb_eq_some hv
      rw [← hveq]
      exact hvpos
    rw [Real.exp_log (by exact_mod_cast hcountpos)]
    push_cast
    rfl
  rw [Finset.sum_congr rfl hpt, ← Finset.sum_div]
  have hsum : ∑ c ∈ classes.toFinset, (countLabel documents c : ℝ) =
      (documents.length : ℝ) := by
    rw [show ∑ c ∈ classes.toFinset, (countLabel documents c : ℝ) =
        ((∑ c ∈ classes.toFinset, countLabel documents c : ℕ) : ℝ) by push_cast; rfl]
    rw [sum_countLabel fun d hd => List.mem_toFinset.2 (hall d hd)]
  rw [hsum, div_self hNne]

theorem spec_C4_witness :
    (∀ c ∈ C1classes, dget C1model.prior c =
        some ((countLabel C1docs c : ℚ) / (C1docs.length : ℚ)) ∧
      logpriorR C1model.prior c =
        Real.log (((countLabel C1docs c : ℚ) / (C1docs.length : ℚ) : ℚ) : ℝ)) ∧
    ∑ c ∈ C1classes.toFinset, Real.exp (logpriorR C1model.prior c) = 1 :=
  spec_C4 (by simp [C1docs]) train_C1

/-- C3 (amended): when training returns and the vocabulary is non-empty,
the smoothed conditional probabilities of each class sum to 1 exactly. -/
theorem spec_C3 {documents : List Doc} {classes : List String} {m : Model}
    (h : train_naive_bayes documents classes = some m)
    {c : String} (hc : c ∈ classes) (hV : m.V ≠ []) :
    ∑ w ∈ m.V.toFinset, Real.exp (loglikelihoodR m.like w c) = 1 := by
  obtain ⟨hall, lp, blocks, hlp, hblocks, rfl⟩ := train_eq_some h
  have hVe : (⟨computeV documents, lp, blocks.flatten⟩ : Model).V = computeV documents := rfl
  have hle : (⟨computeV documents, lp, blocks.flatten⟩ : Model).like = blocks.flatten := rfl
  rw [hVe, hle]
  rw [hVe] at hV
  obtain ⟨b, hb⟩ := mapM_exists_of_mem hblocks c hc
  have hsome : ∀ w ∈ computeV documents, ∃ q,
      likeProb (computeV documents) (bigdocFor documents c) w = some q :=
    mapM_keyed_isSome _ _ hb
  have hdget : ∀ w ∈ computeV documents, dget blocks.flatten (w, c) =
      likeProb (computeV documents) (bigdocFor documents c) w :=
    fun w hw => train_like_dget hblocks hc hw
  obtain ⟨w0, hw0⟩ := List.exists_mem_of_ne_nil _ hV
  obtain ⟨q0, hq0⟩ := hsome w0 hw0
  have hT : ((bigdocFor documents c).map Prod.snd).sum +
      ((computeV documents).length : ℤ) ≠ 0 := (likeProb_eq_some hq0).2.1
  have hpt : ∀ w ∈ (computeV documents).toFinset,
      Real.exp (loglikelihoodR blocks.flatten w c) =
      (((dget (bigdocFor documents c) w).getD 0 + 1 : ℤ) : ℝ) /
        ((((bigdocFor documents c).map Prod.snd).sum +
          ((computeV documents).length : ℤ) : ℤ) : ℝ) := by
    intro w hw
    rw [List.mem_toFinset] at hw
    obtain ⟨q, hq⟩ := hsome w hw
    obtain ⟨hqpos, _, hqval⟩ := likeProb_eq_some hq
    rw [loglikelihoodR, hdget w hw, hq]
    rw [show (some q).getD (0 : ℚ) = q from rfl]
    rw [Real.exp_log (by exact_mod_cast hqpos)]
    rw [hqval, Rat.cast_div, Rat.cast_intCast, Rat.cast_intCast]
  rw [Finset.sum_congr rfl hpt, ← Finset.sum_div]
  have hzsum : (∑ w ∈ (computeV documents).toFinset,
      ((dget (bigdocFor documents c) w).getD 0 + 1)) =
      ((bigdocFor documents c).map Prod.snd).sum +
        ((computeV documents).length : ℤ) := by
    rw [Finset.sum_add_distrib]
    rw [sum_dget_getD (bigdocFor documents c) (computeV documents).toFinset
      (bigdocFor_keys_nodup documents c)
      (fun k hk => List.mem_toFinset.2 (bigdocFor_keys_sub documents c k hk))]
    rw [Finset.sum_const, List.toFinset_card_of_nodup (computeV_nodup documents)]
    simp
  have hrsum : (∑ w ∈ (computeV documents).toFinset,
      (((dget (bigdocFor documents c) w).getD 0 + 1 : ℤ) : ℝ)) =
      ((((bigdocFor documents c).map Prod.snd).sum +
        ((computeV documents).length : ℤ) : ℤ) : ℝ) := by
    rw [← hzsum]
    push_cast
    rfl
  rw [hrsum, div_self (by exact_mod_cast hT)]

theorem spec_C3_witness :
    ∑ w ∈ C1model.V.toFinset, Real.exp (loglikelihoodR C1model.like w "pos") = 1 :=
  spec_C3 train_C1 (by simp [C1classes]) (by simp [C1model])

def C3docs : List Doc := [([], "a"), ([], "b")]

def C3classes : List String := ["a", "b"]

/-- The model trained on two documents with empty word-count mappings:
the vocabulary is empty and the loglikelihood table is empty. -/
def C3model : Model := ⟨[], [("a", 1/2), ("b", 1/2)], []⟩

theorem train_C3 : train_naive_bayes C3docs C3classes = some C3model := by
  simp [train_naive_bayes, priorsFor, priorProb, likelihoodFor, likeProb, bigdocFor,
    computeV, C3docs, C3classes, C3model, countLabel, insertNew, updAdd, dget,
    List.mapM.loop]

/-- C3 counterexample: on the corpus `{"a", "b"}` of two documents with no
words, training returns (docs non-empty, counts non-negative, labels in the
class set) with an empty vocabulary, and the probabilities of class `a`
sum to 0, not 1. -/
theorem spec_C3_cex :
    train_naive_bayes C3docs C3classes = some C3model ∧
    ¬ (∑ w ∈ C3model.V.toFinset, Real.exp (loglikelihoodR C3model.like w "a")) = 1 := by
  refine ⟨train_C3, ?_⟩
  rw [show C3model.V = ([] : List String) from rfl]
  norm_num

theorem map_mul_one (l : List (String × ℚ)) :
    (l.map fun e => (e.1, e.2 * 1)) = l := by
  induction l with
  | nil => rfl
  | cons e t ih => simp [ih]

/-- C5: classifying a document whose words all fall outside the vocabulary
leaves every class's score at its log-prior, so the result is the argmax of
the priors under Python `max`'s first-of-the-maxima tie-break, a class
whose log-prior is maximal. -/
theorem spec_C5 {word_counts : WordCounts} {V : List String}
    {logprior : List (String × ℚ)} {loglikelihood : List ((String × String) × ℚ)}
    {classes : List String}
    (habs : ∀ p ∈ word_counts, p.1 ∉ V)
    (hpos : ∀ e ∈ logprior, (0 : ℚ) < e.2) :
    test_naive_bayes word_counts V logprior loglikelihood classes =
      (classes.mapM fun c => (dget logprior c).map fun p => (c, p)).bind pyMaxFst ∧
    ∀ r, test_naive_bayes word_counts V logprior loglikelihood classes = some r →
      r ∈ classes ∧ ∀ c ∈ classes, logpriorR logprior c ≤ logpriorR logprior r := by
  have hscores : classifyScores word_counts V logprior loglikelihood classes =
      classes.mapM fun c => (dget logprior c).map fun p => (c, p) := by
    rw [classifyScores_eq]
    rcases hinit : classes.mapM fun c => (dget logprior c).map fun p => (c, p)
      with _ | init
    · rfl
    · simp only [Option.map_some']
      refine congrArg some ?_
      have hfun : ∀ e : String × ℚ, e ∈ init →
          (e.1, e.2 * prodFactor word_counts V loglikelihood e.1) = e := by
        intro e _
        rw [prodFactor_of_absent loglikelihood e.1 habs, mul_one]
      rw [List.map_congr_left hfun]
      simp
  have htest : test_naive_bayes word_counts V logprior loglikelihood classes =
      (classes.mapM fun c => (dget logprior c).map fun p => (c, p)).bind pyMaxFst := by
    rw [test_naive_bayes, hscores]
  refine ⟨htest, fun r hr => ?_⟩
  rw [htest] at hr
  rcases hinit : classes.mapM fun c => (dget logprior c).map fun p => (c, p)
    with _ | init
  · rw [hinit] at hr
    cases hr
  · rw [hinit] at hr
    obtain ⟨s', hmem, hall⟩ := pyMaxFst_spec hr
    obtain ⟨r', hr', hid, hdr⟩ := mapM_keyed_entries id _ hinit (r, s') hmem
    have hid' : r' = r := hid
    have hrc : r ∈ classes := hid' ▸ hr'
    have hdgr : dget logprior r = some s' := by
      rw [← hid']
      exact hdr
    have hs'pos : (0 : ℚ) < s' := hpos (r, s') (dget_mem hdgr)
    refine ⟨hrc, fun c hc => ?_⟩
    obtain ⟨pc, hpc⟩ := mapM_keyed_isSome id _ hinit c hc
    have hdc : dget init c = some pc :=
      ((mapM_keyed_dget id (fun a b hab => hab) _ hinit c hc).trans hpc :
        dget init c = some pc)
    have hcpos : (0 : ℚ) < pc := hpos (c, pc) (dget_mem hpc)
    have hle : pc ≤ s' := hall (c, pc) (dget_mem hdc)
    rw [logpriorR, logpriorR, hpc, hdgr]
    exact Real.log_le_log (by exact_mod_cast hcpos) (by exact_mod_cast hle)

theorem spec_C5_witness :
    test_naive_bayes [("zzz", 3)] C1model.V C1model.prior C1model.like C1classes =
      (C1classes.mapM fun c => (dget C1model.prior c).map fun p => (c, p)).bind
        pyMaxFst ∧
    ∀ r, test_naive_bayes [("zzz", 3)] C1model.V C1model.prior C1model.like
        C1classes = some r →
      r ∈ C1classes ∧
        ∀ c ∈ C1classes, logpriorR C1model.prior c ≤ logpriorR C1model.prior r :=
  spec_C5
    (by
      intro p hp
      rw [List.mem_singleton.1 hp]
      simp [C1model])
    (by
      intro e he
      simp only [C1model, List.mem_cons, List.not_mem_nil, or_false] at he
      rcases he with rfl | rfl <;> norm_num)

/-- C6: when the score dict is defined and a class's score is maximal, tied
with a later class and strictly above every earlier class, the classifier
returns that first tied class (Python `max` keeps the first maximum in
iteration order). -/
theorem spec_C6 {word_counts : WordCounts} {V : List String}
    {logprior : List (String × ℚ)} {loglikelihood : List ((String × String) × ℚ)}
    {classes : List String} {scores : List (String × ℚ)}
    (hs : classifyScores word_counts V logprior loglikelihood classes = some scores)
    (hpos : ∀ e ∈ scores, (0 : ℚ) < e.2)
    (i j : ℕ) (hi : i < scores.length) (hj : j < scores.length)
    {c1 c2 : String} {s1 s2 : ℚ}
    (hgi : scores.get ⟨i, hi⟩ = (c1, s1)) (hgj : scores.get ⟨j, hj⟩ = (c2, s2))
    (hij : i < j)
    (heq : Real.log ((s1 : ℚ) : ℝ) = Real.log ((s2 : ℚ) : ℝ))
    (hmax : ∀ e ∈ scores, Real.log ((e.2 : ℚ) : ℝ) ≤ Real.log ((s1 : ℚ) : ℝ))
    (hfirst : ∀ k, (hk : k < i) →
      Real.log (((scores.get ⟨k, lt_trans hk hi⟩).2 : ℚ) : ℝ) <
        Real.log ((s1 : ℚ) : ℝ)) :
    test_naive_bayes word_counts V logprior loglikelihood classes = some c1 := by
  have hs1pos : (0 : ℚ) < s1 := by
    have hm := hpos _ (scores.get_mem i hi)
    rw [hgi] at hm
    exact hm
  have hmaxQ : ∀ e ∈ scores, e.2 ≤ s1 := by
    intro e he
    have := (Real.log_le_log_iff (by exact_mod_cast hpos e he)
      (by exact_mod_cast hs1pos)).1 (hmax e he)
    exact_mod_cast this
  have hfirstQ : ∀ k, (hk : k < i) → (scores.get ⟨k, lt_trans hk hi⟩).2 < s1 := by
    intro k hk
    have hkpos := hpos _ (scores.get_mem k (lt_trans hk hi))
    have := (Real.log_lt_log_iff (by exact_mod_cast hkpos)
      (by exact_mod_cast hs1pos)).1 (hfirst k hk)
    exact_mod_cast this
  rw [test_naive_bayes, hs]
  exact pyMaxFst_first hi hgi hmaxQ hfirstQ

theorem spec_C6_witness :
    test_naive_bayes [] [] [("a", 1/2), ("b", 1/2)] [] ["a", "b"] = some "a" :=
  spec_C6
    (show classifyScores [] [] [("a", 1/2), ("b", 1/2)] [] ["a", "b"] =
        some [("a", 1/2), ("b", 1/2)] by
      simp [classifyScores, dget, List.mapM.loop])
    (by
      intro e he
      simp only [List.mem_cons, List.not_mem_nil, or_false] at he
      rcases he with rfl | rfl <;> norm_num)
    0 1 (by norm_num) (by norm_num)
    rfl rfl (by norm_num) rfl
    (by
      intro e he
      simp only [List.mem_cons, List.not_mem_nil, or_false] at he
      rcases he with rfl | rfl <;> exact le_refl _)
    (fun k hk => absurd hk (Nat.not_lt_zero k))

/-- C8 counterexample: a training document labelled `"mystery"` outside the
class set `{pos, neg}` does not get a fresh per-label bucket: training
aborts with a `KeyError` (modelled as `none`) at `class_counts[label] += 1`
on a plain dict. -/
theorem spec_C8_cex :
    train_naive_bayes [([("x", 1)], "mystery")] ["pos", "neg"] = none := by decide

/-- C8 (amended): `train_naive_bayes` performs no explicit membership
validation, but a document whose label is outside the declared class set
makes the whole training call fail with a `KeyError` (the lookup
`class_counts[label]` on a dict keyed only by the declared classes), rather
than silently accumulating under a fresh bucket. -/
theorem spec_C8_thm {documents : List Doc} {classes : List String}
    (h : ∃ d ∈ documents, d.2 ∉ classes) :
    train_naive_bayes documents classes = none := by
  unfold train_naive_bayes
  have hall : ¬ (documents.all (fun d => d.2 ∈ classes) = true) := by
    simp only [List.all_eq_true, decide_eq_true_eq]
    push_neg
    obtain ⟨d, hd, hdc⟩ := h
    exact ⟨d, hd, hdc⟩
  rw [if_neg hall]

theorem spec_C8_witness :
    train_naive_bayes [([], "x")] ["a"] = none :=
  spec_C8_thm ⟨([], "x"), by simp, by simp⟩

/-- C7 counterexample: the segment `a:-3` parses successfully — Python
`int` accepts a sign — so the loader produces a document with a negative
count instead of failing. -/
theorem spec_C7_cex :
    load_preprocessed_data [["pos", "a:-3"]] =
      some ([([("a", -3)], "pos")], ["a"]) ∧ (-3 : ℤ) < 0 :=
  ⟨by decide, by decide⟩

/-- C7 (amended): blank lines are skipped; a line containing a segment that
does not split into `word` and an integer count is a fatal parse error for
the whole invocation, with no partial result; but counts parse as signed
Python integers, so negative counts are accepted (see the counterexample),
not rejected. -/
theorem spec_C7_thm :
    (∀ pre post, load_preprocessed_data (pre ++ [] :: post) =
      load_preprocessed_data (pre ++ post)) ∧
    (∀ pre (line : List String) post, (∃ s ∈ line.tail, parseSeg s = none) →
      line ≠ [] → load_preprocessed_data (pre ++ line :: post) = none) ∧
    parseSeg "a:-3" = some ("a", -3) := by
  refine ⟨?_, ?_, by decide⟩
  · intro pre post
    unfold load_preprocessed_data
    rw [foldlM_option_append, foldlM_option_append]
    rfl
  · intro pre line post hbad hne
    unfold load_preprocessed_data
    rw [foldlM_option_append]
    match line, hne, hbad with
    | label :: segs, _, hbad =>
      have hbad' : ∃ s ∈ segs, parseSeg s = none := hbad
      have hstep : ∀ st : List Doc × List String, loadStep st (label :: segs) = none := by
        intro st
        simp only [loadStep]
        rw [parseSegs_none hbad']
        rfl
      rcases hpre : pre.foldlM loadStep ([], []) with _ | st
      · rfl
      · show ((label :: segs) :: post).foldlM loadStep st = none
        rw [show ((label :: segs) :: post).foldlM loadStep st =
          (loadStep st (label :: segs)).bind fun s' => post.foldlM loadStep s'
          from rfl, hstep st]
        rfl

theorem spec_C7_witness :
    load_preprocessed_data ([["pos", "a:1"]] ++ ["neg", "b:x"] :: []) = none :=
  spec_C7_thm.2.1 [["pos", "a:1"]] ["neg", "b:x"] []
    ⟨"b:x", by simp, by decide⟩ (by simp)

/-- C10: the vocabulary the loader returns and the vocabulary the trainer
recomputes from the loaded documents contain the same words, and a
successful training run's `V` is exactly that recomputed vocabulary. -/
theorem spec_C10 {lines : List (List String)} {docs : List Doc}
    {vocab : List String}
    (h : load_preprocessed_data lines = some (docs, vocab)) :
    (∀ w, w ∈ vocab ↔ w ∈ computeV docs) ∧
    ∀ classes m, train_naive_bayes docs classes = some m →
      m.V = computeV docs := by
  refine ⟨fun w => ?_, fun classes m hm => ?_⟩
  · rw [mem_computeV]
    exact load_fold_vocab lines ([], []) docs vocab h (by simp) w
  · obtain ⟨_, lp, blocks, _, _, rfl⟩ := train_eq_some hm
    rfl

theorem spec_C10_witness :
    (∀ w, w ∈ ["a", "b"] ↔
      w ∈ computeV [([("a", 1)], "pos"), ([("b", 2), ("a", 1)], "neg")]) ∧
    ∀ classes m,
      train_naive_bayes [([("a", 1)], "pos"), ([("b", 2), ("a", 1)], "neg")]
        classes = some m →
      m.V = computeV [([("a", 1)], "pos"), ([("b", 2), ("a", 1)], "neg")] :=
  spec_C10 (show load_preprocessed_data [["pos", "a:1"], [], ["neg", "b:2", "a:1"]] =
    some ([([("a", 1)], "pos"), ([("b", 2), ("a", 1)], "neg")], ["a", "b"]) by decide)

theorem fmt2_70 : fmt2 70 = "70.00" := by
  unfold fmt2 roundHalfEven
  norm_num
  rfl

theorem fmt2_100 : fmt2 100 = "100.00" := by
  unfold fmt2 roundHalfEven
  norm_num
  rfl

/-- The driver's output on a test corpus whose classifications all succeed:
the predicted labels each followed by a newline, an empty line, and the
accuracy line. -/
theorem driverOutput_eq {test_docs : List Doc} {V : List String}
    {lp : List (String × ℚ)} {ll : List ((String × String) × ℚ)}
    {classes : List String} {results : List (String × String)}
    (hmapM : (test_docs.mapM fun d =>
      (test_naive_bayes d.1 V lp ll classes).map fun p => (p, d.2)) = some results)
    (hne : results ≠ []) :
    driverOutput test_docs V lp ll classes =
      some (String.join (results.map fun r => r.1 ++ "\n") ++ "\n" ++
        "Accuracy: " ++
        fmt2 ((countCorrect results : ℚ) / (results.length : ℚ) * 100) ++ "%") := by
  unfold driverOutput
  rw [hmapM]
  show (if results.length = 0 then none else _) = _
  rw [if_neg fun h => hne (List.length_eq_zero.1 h)]

/-- C9 counterexample: on a one-document test corpus the driver's output is
`"pos\n\nAccuracy: 100.00%"` — the predicted label's line is followed by an
empty line before the accuracy line (the driver writes `"\nAccuracy: …"`
after a line that already ends in a newline), not directly by it. -/
theorem spec_C9_cex :
    driverOutput [([("great", 1)], "pos")] C1model.V C1model.prior C1model.like
      C1classes = some "pos\n\nAccuracy: 100.00%" ∧
    "pos\n\nAccuracy: 100.00%" ≠ "pos\nAccuracy: 100.00%" := by
  constructor
  · have h1 : ([([("great", 1)], "pos")].mapM fun d =>
        (test_naive_bayes d.1 C1model.V C1model.prior C1model.like C1classes).map
          fun p => (p, d.2)) = some [("pos", "pos")] := by
      simp [test_naive_bayes, classifyScores, C1model, C1classes, dget,
        pyMaxFst, pyMaxGo, List.mapM.loop]
      norm_num
    rw [driverOutput_eq h1 (by simp)]
    have hacc : ((countCorrect [("pos", "pos")] : ℚ) /
        (([("pos", "pos")] : List (String × String)).length : ℚ) * 100) = 100 := by
      norm_num [countCorrect]
    rw [hacc, fmt2_100]
    rfl
  · decide

def C9testDocs : List Doc :=
  [([("great", 1)], "pos"), ([("great", 1)], "pos"), ([("great", 1)], "pos"),
   ([("great", 1)], "pos"), ([("great", 1)], "pos"),
   ([("bad", 1)], "neg"), ([("bad", 1)], "neg"),
   ([("great", 1)], "neg"), ([("great", 1)], "neg"), ([("great", 1)], "neg")]

/-- C9 (amended): on a non-empty test corpus the driver writes one predicted
label per line in the order the test documents were read, then an empty
line, then the summary line `Accuracy: XX.XX%` with two decimal places and
no trailing newline; for 10 test documents with 7 correct predictions the
summary line reads exactly `Accuracy: 70.00%`. -/
theorem spec_C9_thm :
    (∀ (test_docs : List Doc) (V : List String) (lp : List (String × ℚ))
        (ll : List ((String × String) × ℚ)) (classes : List String)
        (results : List (String × String)),
      (test_docs.mapM fun d =>
        (test_naive_bayes d.1 V lp ll classes).map fun p => (p, d.2)) =
          some results →
      results ≠ [] →
      driverOutput test_docs V lp ll classes =
        some (String.join (results.map fun r => r.1 ++ "\n") ++ "\n" ++
          "Accuracy: " ++
          fmt2 ((countCorrect results : ℚ) / (results.length : ℚ) * 100) ++ "%")) ∧
    driverOutput C9testDocs C1model.V C1model.prior C1model.like C1classes =
      some ("pos\npos\npos\npos\npos\nneg\nneg\npos\npos\npos\n" ++
        "\nAccuracy: 70.00%") := by
  constructor
  · intro test_docs V lp ll classes results hmapM hne
    exact driverOutput_eq hmapM hne
  · have h1 : (C9testDocs.mapM fun d =>
        (test_naive_bayes d.1 C1model.V C1model.prior C1model.like C1classes).map
          fun p => (p, d.2)) =
        some [("pos", "pos"), ("pos", "pos"), ("pos", "pos"), ("pos", "pos"),
          ("pos", "pos"), ("neg", "neg"), ("neg", "neg"), ("pos", "neg"),
          ("pos", "neg"), ("pos", "neg")] := by
      simp [C9testDocs, test_naive_bayes, classifyScores, C1model, C1classes, dget,
        pyMaxFst, pyMaxGo, List.mapM.loop]
      norm_num
    rw [driverOutput_eq h1 (by simp)]
    have hacc : ((countCorrect [("pos", "pos"), ("pos", "pos"), ("pos", "pos"),
        ("pos", "pos"), ("pos", "pos"), ("neg", "neg"), ("neg", "neg"),
        ("pos", "neg"), ("pos", "neg"), ("pos", "neg")] : ℚ) /
        (([("pos", "pos"), ("pos", "pos"), ("pos", "pos"), ("pos", "pos"),
          ("pos", "pos"), ("neg", "neg"), ("neg", "neg"), ("pos", "neg"),
          ("pos", "neg"), ("pos", "neg")] : List (String × String)).length : ℚ) *
        100) = 70 := by
      simp [countCorrect]
      norm_num
    rw [hacc, fmt2_70]
    rfl

theorem spec_C9_witness :
    driverOutput [([], "x")] [] [("x", 1)] [] ["x"] =
      some (String.join ([("x", "x")].map fun r => r.1 ++ "\n") ++ "\n" ++
        "Accuracy: " ++
        fmt2 ((countCorrect [("x", "x")] : ℚ) / (([("x", "x")] :
          List (String × String)).length : ℚ) * 100) ++ "%") :=
  spec_C9_thm.1 [([], "x")] [] [("x", 1)] [] ["x"] [("x", "x")]
    (by simp [test_naive_bayes, classifyScores, dget, pyMaxFst, pyMaxGo,
      List.mapM.loop])
    (by simp)

end NB
